import Mathlib

/-!
Shallow embedding of the habit-tracker client (`src/habit-tracker/src/App.jsx`)
and proofs about its core logic: the due-date engine, the scoring and streak
engine, the leaderboard reconciler, habit addition, and the identity gate.

Calendar dates are modelled as integer day ordinals: the JS code stores
date-only `YYYY-MM-DD` strings and its `daysBetween` computes the exact signed
whole-day difference, so a date-only value is faithfully an integer day count.
-/

namespace HabitApp

abbrev Date := Int

/-- Source `daysBetween(from, to)`: `Math.round((b - a) / 86400000)` over
date-only values, i.e. the exact signed day difference `to - from`. -/
def daysBetween (f t : Date) : Int := t - f

/-- Source `levelFromXP`: `Math.floor((xp || 0) / 100) + 1`; `xp` is a
non-negative integer, so `Nat` floor division matches. -/
def levelFromXP (xp : Nat) : Nat := xp / 100 + 1

/-- The three frequency strings `'daily' | 'every2days' | 'custom'`. -/
inductive Freq where
  | daily
  | every2days
  | custom
deriving DecidableEq

/-- Source habit record. `totalCompletions` is a non-negative counter (the
code's `|| 0` guard is absorbed by `Nat`); `lastDoneDate` is absent for a
never-completed habit. -/
structure Habit where
  id : Nat
  title : String
  freq : Freq
  intervalDays : Int
  lastDoneDate : Option Date
  totalCompletions : Nat
deriving DecidableEq

/-- Source `isHabitDue(h, date)`: the interval is `1` for daily, `2` for
every2days, otherwise `Math.max(1, h.intervalDays || 1)` (JS `|| 1` replaces a
falsy `0`); a habit with no `lastDoneDate` is always due, otherwise it is due
iff `daysBetween(h.lastDoneDate, date) >= interval`. -/
def isHabitDue (h : Habit) (date : Date) : Bool :=
  let interval : Int :=
    match h.freq with
    | .daily => 1
    | .every2days => 2
    | .custom => max 1 (if h.intervalDays = 0 then 1 else h.intervalDays)
  match h.lastDoneDate with
  | none => true
  | some last => decide (daysBetween last date ≥ interval)

/-- The spec's wording of the interval (section 4.2), stated as its own
definition so it can be compared with the code's computation in `isHabitDue`:
`effectiveInterval(habit)` returns 1 for Daily, 2 for EveryTwoDays and
`max(1, intervalDays)` for Custom. -/
def effectiveInterval (h : Habit) : Int :=
  match h.freq with
  | .daily => 1
  | .every2days => 2
  | .custom => max 1 h.intervalDays

/-- Leaderboard entry as written by `completeHabit`:
`{ name, points, streak, level }`. -/
structure PlayerEntry where
  name : String
  points : Nat
  streak : Nat
  level : Nat
deriving DecidableEq

/-- Comparator of source `.sort((a, b) => b.points - a.points)`: `a` may be
placed before `b` iff `b.points ≤ a.points`. JS array sort is required to be
stable, so the stable `List.mergeSort` models it. -/
def lbLE (a b : PlayerEntry) : Bool := decide (b.points ≤ a.points)

/-- Leaderboard update of source `completeHabit`:
`players.filter(p => p.name !== me.name).concat(me)
  .sort((a, b) => b.points - a.points).slice(0, 5)`. -/
def reconcile (players : List PlayerEntry) (me : PlayerEntry) : List PlayerEntry :=
  (((players.filter fun p => p.name != me.name) ++ [me]).mergeSort lbLE).take 5

/-- Streak block of source `completeHabit`: unchanged when already active
today, `1` when `lastActiveDate` is absent, incremented when the gap is
exactly one day, reset to `1` otherwise. -/
def streakNext (lastActiveDate : Option Date) (overallStreak : Nat) (today : Date) : Nat :=
  match lastActiveDate with
  | none => 1
  | some last =>
    if last = today then overallStreak
    else if daysBetween last today = 1 then overallStreak + 1
    else 1

/-- Source user document (`UserDoc`), with the display name the client merges
in when subscribing. `points` and `xp` are non-negative integers (the code's
`|| 0` guards are absorbed by `Nat`). -/
structure UserDoc where
  name : String
  codeHash : String
  points : Nat
  xp : Nat
  level : Nat
  overallStreak : Nat
  lastActiveDate : Option Date
  habits : List Habit
deriving DecidableEq

/-- Source `completeHabit(id)`: marks every habit whose id matches as done
today with one more completion, adds the fixed 10 points to `points` and `xp`,
recomputes the level, applies the streak rule, stamps `lastActiveDate`, and
rewrites the global leaderboard with the user's new standing. The Firestore
reads/writes are modelled as explicit input and output values. -/
def completeHabit (u : UserDoc) (players : List PlayerEntry) (today : Date) (id : Nat) :
    UserDoc × List PlayerEntry :=
  let list := u.habits.map fun h =>
    if h.id = id then
      { h with lastDoneDate := some today, totalCompletions := h.totalCompletions + 1 }
    else h
  let addPoints := 10
  let newXP := u.xp + addPoints
  let newLevel := levelFromXP newXP
  let newStreak := streakNext u.lastActiveDate u.overallStreak today
  let u' : UserDoc :=
    { u with habits := list, points := u.points + addPoints, xp := newXP,
             level := newLevel, overallStreak := newStreak, lastActiveDate := some today }
  let me : PlayerEntry :=
    { name := u.name, points := u.points + addPoints, streak := newStreak, level := newLevel }
  (u', reconcile players me)

/-! ## C1: due-date engine agrees with the spec's effectiveInterval -/

/-- C1. `isHabitDue` is true whenever the habit was never completed, and
otherwise true exactly when the day gap reaches the spec's
`effectiveInterval`: 1 for daily, 2 for every2days, `max 1 intervalDays` for
custom. -/
theorem isHabitDue_matches_effectiveInterval (h : Habit) (d : Date) :
    (h.lastDoneDate = none → isHabitDue h d = true) ∧
    (∀ last, h.lastDoneDate = some last →
      (isHabitDue h d = true ↔ daysBetween last d ≥ effectiveInterval h)) := by
  have hint : (match h.freq with
      | .daily => (1 : Int)
      | .every2days => 2
      | .custom => max 1 (if h.intervalDays = 0 then 1 else h.intervalDays)) =
      effectiveInterval h := by
    cases hf : h.freq <;> simp [effectiveInterval, hf]
    rcases eq_or_ne h.intervalDays 0 with h0 | h0 <;> simp [h0]
  constructor
  · intro hnone
    simp [isHabitDue, hnone]
  · intro last hlast
    simp only [isHabitDue, hint, hlast]
    exact decide_eq_true_iff

/-- C1 witness: a custom habit with interval 3 last done on day 0 is due on
day 3. -/
theorem isHabitDue_matches_effectiveInterval_witness :
    isHabitDue ⟨1, "read", .custom, 3, some 0, 0⟩ 3 = true ↔
      daysBetween 0 3 ≥ effectiveInterval ⟨1, "read", .custom, 3, some 0, 0⟩ :=
  (isHabitDue_matches_effectiveInterval ⟨1, "read", .custom, 3, some 0, 0⟩ 3).2 0 rfl

/-! ## C2: completion reward and level -/

/-- C2. One completion adds exactly 10 to `points` and to `xp` and stores
`level = xp / 100 + 1` computed from the new xp; from `xp = 95` one completion
gives `xp = 105` and level 2. -/
theorem completeHabit_scoring (u : UserDoc) (players : List PlayerEntry)
    (today : Date) (id : Nat) :
    (completeHabit u players today id).1.points = u.points + 10 ∧
    (completeHabit u players today id).1.xp = u.xp + 10 ∧
    (completeHabit u players today id).1.level = (u.xp + 10) / 100 + 1 ∧
    (u.xp = 95 → (completeHabit u players today id).1.xp = 105 ∧
      (completeHabit u players today id).1.level = 2) := by
  refine ⟨rfl, rfl, rfl, fun h95 => ?_⟩
  simp [completeHabit, levelFromXP, h95]

/-- C2 witness: a concrete user with 95 xp reaches 105 xp and level 2. -/
theorem completeHabit_scoring_witness :
    (completeHabit ⟨"ann", "h", 95, 95, 1, 0, none, []⟩ [] 0 1).1.xp = 105 ∧
    (completeHabit ⟨"ann", "h", 95, 95, 1, 0, none, []⟩ [] 0 1).1.level = 2 :=
  (completeHabit_scoring ⟨"ann", "h", 95, 95, 1, 0, none, []⟩ [] 0 1).2.2.2 rfl

/-! ## C3: streak transition -/

/-- C3. On a completion dated `today` the streak is unchanged when
`lastActiveDate = today`, becomes 1 when `lastActiveDate` is absent, and
otherwise increments exactly when the gap is 1 day, resetting to 1 in every
other case. -/
theorem completeHabit_streak (u : UserDoc) (players : List PlayerEntry)
    (today : Date) (id : Nat) :
    (u.lastActiveDate = some today →
      (completeHabit u players today id).1.overallStreak = u.overallStreak) ∧
    (u.lastActiveDate = none →
      (completeHabit u players today id).1.overallStreak = 1) ∧
    (∀ last, u.lastActiveDate = some last → last ≠ today →
      ((daysBetween last today = 1 →
        (completeHabit u players today id).1.overallStreak = u.overallStreak + 1) ∧
       (daysBetween last today ≠ 1 →
        (completeHabit u players today id).1.overallStreak = 1))) := by
  refine ⟨fun htoday => ?_, fun hnone => ?_, fun last hlast hne => ⟨fun h1 => ?_, fun h1 => ?_⟩⟩
  · simp [completeHabit, streakNext, htoday]
  · simp [completeHabit, streakNext, hnone]
  · simp [completeHabit, streakNext, hlast, hne, h1]
  · simp [completeHabit, streakNext, hlast, hne, h1]

/-- C3 witness: completing with `lastActiveDate` one day back increments the
streak from 4 to 5. -/
theorem completeHabit_streak_witness :
    (completeHabit ⟨"ann", "h", 0, 0, 1, 4, some 9, []⟩ [] 10 1).1.overallStreak = 4 + 1 :=
  ((completeHabit_streak ⟨"ann", "h", 0, 0, 1, 4, some 9, []⟩ [] 10 1).2.2 9 rfl
    (by decide)).1 (by decide)

/-! ## C4: the habit-list update in completeHabit -/

/-- C4. Completing a habit by id rewrites every position of the habit list:
a habit whose id matches gets `lastDoneDate = today` and exactly one more
`totalCompletions`, any other habit is untouched, and the list keeps its
length. No due-ness condition appears anywhere: the update is unconditional. -/
theorem completeHabit_updates_target (u : UserDoc) (players : List PlayerEntry)
    (today : Date) (id : Nat) (i : Nat) (h : Habit) (hh : u.habits[i]? = some h) :
    (completeHabit u players today id).1.habits.length = u.habits.length ∧
    (h.id = id → (completeHabit u players today id).1.habits[i]? =
      some { h with lastDoneDate := some today,
                    totalCompletions := h.totalCompletions + 1 }) ∧
    (h.id ≠ id → (completeHabit u players today id).1.habits[i]? = some h) := by
  refine ⟨by simp [completeHabit], fun heq => ?_, fun hne => ?_⟩
  · simp [completeHabit, List.getElem?_map, hh, heq]
  · simp [completeHabit, List.getElem?_map, hh, hne]

/-- C4 witness: completing the habit with id 7 stamps it done today with one
more completion. -/
theorem completeHabit_updates_target_witness :
    (completeHabit ⟨"ann", "h", 0, 0, 1, 0, none,
        [⟨7, "read", .daily, 1, none, 3⟩]⟩ [] 5 7).1.habits[0]? =
      some ⟨7, "read", .daily, 1, some 5, 4⟩ :=
  (completeHabit_updates_target ⟨"ann", "h", 0, 0, 1, 0, none,
    [⟨7, "read", .daily, 1, none, 3⟩]⟩ [] 5 7 0 ⟨7, "read", .daily, 1, none, 3⟩
    rfl).2.1 rfl

/-! ## C10: completion with an id that matches no habit -/

/-- A map that conditionally rewrites habits with a matching id leaves a list
alone when no habit matches. -/
theorem map_keep_of_no_match (l : List Habit) (today : Date) (id : Nat)
    (hid : ∀ h ∈ l, h.id ≠ id) :
    (l.map fun h =>
      if h.id = id then
        { h with lastDoneDate := some today, totalCompletions := h.totalCompletions + 1 }
      else h) = l := by
  induction l with
  | nil => rfl
  | cons a l ih =>
    simp only [List.mem_cons, forall_eq_or_imp] at hid
    simp [hid.1, ih hid.2]

/-- C10. When the id matches no habit, `completeHabit` still applies the whole
scoring pipeline: +10 points and xp, recomputed level, the streak transition,
`lastActiveDate = today`, and the leaderboard rewrite; the habit list is
unchanged and no validation rejects the unknown id. -/
theorem completeHabit_unknown_id (u : UserDoc) (players : List PlayerEntry)
    (today : Date) (id : Nat) (hid : ∀ h ∈ u.habits, h.id ≠ id) :
    (completeHabit u players today id).1 =
      { u with points := u.points + 10, xp := u.xp + 10,
               level := levelFromXP (u.xp + 10),
               overallStreak := streakNext u.lastActiveDate u.overallStreak today,
               lastActiveDate := some today } ∧
    (completeHabit u players today id).2 =
      reconcile players
        { name := u.name, points := u.points + 10,
          streak := streakNext u.lastActiveDate u.overallStreak today,
          level := levelFromXP (u.xp + 10) } := by
  exact ⟨by simp [completeHabit, map_keep_of_no_match u.habits today id hid], rfl⟩

/-- C10 witness: an id absent from a one-habit list leaves the list alone but
still scores and rewrites the leaderboard. -/
theorem completeHabit_unknown_id_witness :
    (completeHabit ⟨"ann", "h", 20, 20, 1, 2, some 4,
        [⟨7, "read", .daily, 1, none, 3⟩]⟩ [] 5 99).1 =
      { name := "ann", codeHash := "h", points := 30, xp := 30, level := 1,
        overallStreak := 3, lastActiveDate := some 5,
        habits := [⟨7, "read", .daily, 1, none, 3⟩] } ∧
    (completeHabit ⟨"ann", "h", 20, 20, 1, 2, some 4,
        [⟨7, "read", .daily, 1, none, 3⟩]⟩ [] 5 99).2 =
      reconcile [] { name := "ann", points := 30, streak := 3, level := 1 } := by
  have := completeHabit_unknown_id ⟨"ann", "h", 20, 20, 1, 2, some 4,
    [⟨7, "read", .daily, 1, none, 3⟩]⟩ [] 5 99 (by decide)
  simpa [streakNext, daysBetween, levelFromXP] using this

/-! ## Habit addition (`addHabit`) -/

/-- Outcomes of source `addHabit`: the two early-return `alert` branches
(`"Max 15 habits"`, `"Give the habit a title"`) and success. -/
inductive AddResult where
  | ok
  | capacityExceeded
  | invalidInput
deriving DecidableEq

/-- Raw form state feeding `addHabit`. `intervalDays` holds the result of the
JS `Number(...)` coercion of the interval field: `none` models a non-numeric
input (`NaN`), `some v` a numeric one. -/
structure NewHabitInput where
  title : String
  freq : Freq
  intervalDays : Option Int
deriving DecidableEq

/-- Source `Math.max(1, Number(newHabit.intervalDays) || 1)`: `NaN` and `0`
are falsy and replaced by 1, every other value is clamped from below at 1. -/
def normCustomInterval (n : Option Int) : Int :=
  max 1 (match n with
    | none => 1
    | some v => if v = 0 then 1 else v)

/-- Source interval selection in `addHabit`:
`freq === "custom" ? Math.max(1, Number(...) || 1) : (freq === "every2days" ? 2 : 1)`. -/
def newHabitIntervalDays (inp : NewHabitInput) : Int :=
  match inp.freq with
  | .custom => normCustomInterval inp.intervalDays
  | .every2days => 2
  | .daily => 1

/-- JS `String.prototype.trim`, modelled executably on the character list:
drops leading and trailing whitespace. -/
def jsTrim (s : String) : String :=
  ⟨((s.data.dropWhile Char.isWhitespace).reverse.dropWhile Char.isWhitespace).reverse⟩

/-- Source `(newHabit.title || "Untitled").trim()`: the empty string is the
only falsy string, so it is replaced by the placeholder before trimming. -/
def processedTitle (t : String) : String :=
  jsTrim (if t = "" then "Untitled" else t)

/-- The habit record built by source `addHabit` (its random uuid is passed in
as `newId`). -/
def mkHabit (inp : NewHabitInput) (newId : Nat) : Habit :=
  { id := newId, title := processedTitle inp.title, freq := inp.freq,
    intervalDays := newHabitIntervalDays inp, lastDoneDate := none,
    totalCompletions := 0 }

/-- Source `addHabit`: rejects at 15 habits, rejects a title that trims to
empty, otherwise appends the new habit. The two error branches return before
the store write, leaving the user document unchanged. -/
def addHabit (u : UserDoc) (inp : NewHabitInput) (newId : Nat) : AddResult × UserDoc :=
  if u.habits.length ≥ 15 then (.capacityExceeded, u)
  else if processedTitle inp.title = "" then (.invalidInput, u)
  else (.ok, { u with habits := u.habits ++ [mkHabit inp newId] })

/-! ## C7: the 15-habit capacity limit -/

/-- C7. With exactly 15 habits any add attempt fails with capacity exceeded
and leaves the user document untouched; with at most 14 habits an add request
whose title survives processing succeeds and appends the habit. -/
theorem addHabit_capacity (u : UserDoc) (inp : NewHabitInput) (newId : Nat) :
    (u.habits.length = 15 → addHabit u inp newId = (.capacityExceeded, u)) ∧
    (u.habits.length ≤ 14 → processedTitle inp.title ≠ "" →
      addHabit u inp newId = (.ok, { u with habits := u.habits ++ [mkHabit inp newId] })) := by
  constructor
  · intro h15
    simp [addHabit, h15]
  · intro hle ht
    have h15 : ¬ u.habits.length ≥ 15 := by omega
    simp [addHabit, h15, ht]

/-- C7 witness: the 16th habit is rejected on a user with 15 habits, and the
same request succeeds on a user with none. -/
theorem addHabit_capacity_witness :
    addHabit ⟨"ann", "h", 0, 0, 1, 0, none, List.replicate 15 ⟨1, "t", .daily, 1, none, 0⟩⟩
        ⟨"Read", .daily, some 1⟩ 99 =
      (.capacityExceeded,
        ⟨"ann", "h", 0, 0, 1, 0, none, List.replicate 15 ⟨1, "t", .daily, 1, none, 0⟩⟩) ∧
    addHabit ⟨"bob", "h", 0, 0, 1, 0, none, []⟩ ⟨"Read", .daily, some 1⟩ 1 =
      (.ok, { name := "bob", codeHash := "h", points := 0, xp := 0, level := 1,
              overallStreak := 0, lastActiveDate := none,
              habits := [mkHabit ⟨"Read", .daily, some 1⟩ 1] }) :=
  ⟨(addHabit_capacity _ ⟨"Read", .daily, some 1⟩ 99).1 (by simp),
   (addHabit_capacity ⟨"bob", "h", 0, 0, 1, 0, none, []⟩ ⟨"Read", .daily, some 1⟩ 1).2
     (by simp) (by decide)⟩

/-! ## C9: malformed custom intervals are clamped, not rejected -/

/-- C9 counterexample: a Custom add request whose interval input is
non-numeric (JS `Number(...)` gives `NaN`) is not rejected with any error; the
habit is added, with the interval silently defaulted to 1. -/
theorem addHabit_malformed_interval_counterexample :
    addHabit ⟨"ann", "h", 0, 0, 1, 0, none, []⟩ ⟨"Read", .custom, none⟩ 1 =
      (.ok, { name := "ann", codeHash := "h", points := 0, xp := 0, level := 1,
              overallStreak := 0, lastActiveDate := none,
              habits := [⟨1, "Read", .custom, 1, none, 0⟩] }) := by
  decide

/-- C9 amended: below capacity and with a valid title, a Custom request with a
malformed or below-1 interval input does not fail: the habit is appended with
`intervalDays = normCustomInterval input`, which is always at least 1 and is
exactly 1 for a non-numeric input. -/
theorem addHabit_malformed_interval_clamped (u : UserDoc) (inp : NewHabitInput)
    (newId : Nat) (hcap : u.habits.length ≤ 14)
    (ht : processedTitle inp.title ≠ "") (hf : inp.freq = .custom) :
    addHabit u inp newId = (.ok, { u with habits := u.habits ++ [mkHabit inp newId] }) ∧
    (mkHabit inp newId).intervalDays = normCustomInterval inp.intervalDays ∧
    1 ≤ normCustomInterval inp.intervalDays ∧
    (inp.intervalDays = none → normCustomInterval inp.intervalDays = 1) := by
  have h15 : ¬ u.habits.length ≥ 15 := by omega
  refine ⟨by simp [addHabit, h15, ht], by simp [mkHabit, newHabitIntervalDays, hf], ?_, ?_⟩
  · exact le_max_left 1 _
  · intro hn
    simp [normCustomInterval, hn]

/-- C9 amended witness: the concrete malformed request from the
counterexample goes through the amended statement. -/
theorem addHabit_malformed_interval_clamped_witness :
    addHabit ⟨"ann", "h", 0, 0, 1, 0, none, []⟩ ⟨"Read", .custom, none⟩ 2 =
      (.ok, { name := "ann", codeHash := "h", points := 0, xp := 0, level := 1,
              overallStreak := 0, lastActiveDate := none,
              habits := [mkHabit ⟨"Read", .custom, none⟩ 2] }) ∧
    (mkHabit ⟨"Read", .custom, none⟩ 2).intervalDays =
      normCustomInterval (Option.none) ∧
    1 ≤ normCustomInterval (Option.none) ∧
    ((Option.none : Option Int) = none → normCustomInterval (Option.none) = 1) :=
  addHabit_malformed_interval_clamped ⟨"ann", "h", 0, 0, 1, 0, none, []⟩
    ⟨"Read", .custom, none⟩ 2 (by simp) (by decide) rfl

/-! ## Identity gate (`handleEnter`) -/

/-- Outcomes of source `handleEnter`: the `alert("Enter name and code")` and
`alert("Wrong code for this name")` early returns, or an active session for
the given name. -/
inductive EnterResult where
  | invalidInput
  | invalidCredential
  | active (name : String)
deriving DecidableEq

/-- The remote documents `handleEnter` and `completeHabit` read and write:
the `users` collection keyed by name, the roster names document, and the
global leaderboard players document. -/
structure Store where
  users : String → Option UserDoc
  rosterNames : List String
  players : List PlayerEntry

/-- Source `handleEnter`: rejects empty name or code, hashes the code, then
either validates the hash against the stored user (wrong hash returns before
any write) or creates the user with default fields and appends the name to
the roster (capped at 50) when absent. The async Firestore calls are modelled
as explicit store input and output. -/
def handleEnter (store : Store) (hash : String → String)
    (selectedName code : String) : EnterResult × Store :=
  if selectedName = "" ∨ code = "" then (.invalidInput, store)
  else
    let ch := hash code
    match store.users selectedName with
    | some data =>
      if data.codeHash ≠ ch then (.invalidCredential, store)
      else (.active selectedName, store)
    | none =>
      let payload : UserDoc :=
        { name := selectedName, codeHash := ch, points := 0, xp := 0, level := 1,
          overallStreak := 0, lastActiveDate := none, habits := [] }
      let users := fun n => if n = selectedName then some payload else store.users n
      let roster :=
        if selectedName ∈ store.rosterNames then store.rosterNames
        else (store.rosterNames ++ [selectedName]).take 50
      (.active selectedName, { store with users := users, rosterNames := roster })

/-! ## C8: wrong secret fails without mutating anything -/

/-- C8. Entering an existing name with a secret whose hash differs from the
stored credential hash fails with the invalid-credential outcome and returns
the store exactly as it was: user documents, roster and leaderboard untouched,
and no active session is produced. -/
theorem handleEnter_wrong_code (store : Store) (hash : String → String)
    (name code : String) (d : UserDoc) (hname : name ≠ "") (hcode : code ≠ "")
    (hfound : store.users name = some d) (hbad : d.codeHash ≠ hash code) :
    handleEnter store hash name code = (.invalidCredential, store) := by
  simp [handleEnter, hname, hcode, hfound, hbad]

/-- C8 witness: a stored user `ann` with hash `X`, re-entered with a code
hashing to something else, is rejected and the store is returned unchanged. -/
theorem handleEnter_wrong_code_witness :
    handleEnter
        ⟨fun n => if n = "ann" then some ⟨"ann", "X", 0, 0, 1, 0, none, []⟩ else none,
         ["ann"], []⟩
        (fun s => s ++ "!") "ann" "1234" =
      (.invalidCredential,
        ⟨fun n => if n = "ann" then some ⟨"ann", "X", 0, 0, 1, 0, none, []⟩ else none,
         ["ann"], []⟩) :=
  handleEnter_wrong_code _ (fun s => s ++ "!") "ann" "1234"
    ⟨"ann", "X", 0, 0, 1, 0, none, []⟩ (by decide) (by decide) (by simp) (by decide)

/-! ## Leaderboard machinery: the comparator, stability, tie classes -/

/-- The leaderboard comparator is transitive. -/
theorem lbLE_trans : ∀ a b c : PlayerEntry, lbLE a b → lbLE b c → lbLE a c := by
  intro a b c hab hbc
  simp only [lbLE, decide_eq_true_eq] at hab hbc ⊢
  omega

/-- The leaderboard comparator is total. -/
theorem lbLE_total : ∀ a b : PlayerEntry, lbLE a b || lbLE b a := by
  intro a b
  rcases Nat.le_total a.points b.points with h | h <;> simp [lbLE, h]

/-- Stability consequence: sorting does not change the subsequence of entries
holding any fixed score, because the sort is stable and ties compare equal. -/
theorem filter_points_mergeSort (l : List PlayerEntry) (k : Nat) :
    (l.mergeSort lbLE).filter (fun x => x.points == k) =
      l.filter (fun x => x.points == k) := by
  have hmem : ∀ x ∈ l.filter (fun x => x.points == k), x.points = k := by
    intro x hx
    simpa using (List.mem_filter.mp hx).2
  have hpw : (l.filter (fun x => x.points == k)).Pairwise (fun a b => lbLE a b) := by
    apply List.pairwise_of_forall_mem_list
    intro a ha b hb
    have ha' := hmem a ha
    have hb' := hmem b hb
    simp [lbLE, ha', hb']
  have hsub : List.Sublist (l.filter (fun x => x.points == k)) (l.mergeSort lbLE) :=
    List.sublist_mergeSort lbLE_trans lbLE_total hpw (List.filter_sublist l)
  have hself : (l.filter (fun x => x.points == k)).filter (fun x => x.points == k) =
      l.filter (fun x => x.points == k) :=
    List.filter_eq_self.mpr (by intro a ha; simpa using hmem a ha)
  have hsub2 : List.Sublist (l.filter (fun x => x.points == k))
      ((l.mergeSort lbLE).filter (fun x => x.points == k)) := by
    have := hsub.filter (fun x => x.points == k)
    rwa [hself] at this
  have hlen : ((l.mergeSort lbLE).filter (fun x => x.points == k)).length =
      (l.filter (fun x => x.points == k)).length := by
    have hperm := List.mergeSort_perm l lbLE
    simpa [List.countP_eq_length_filter] using hperm.countP_eq (fun x => x.points == k)
  exact (hsub2.eq_of_length hlen.symm).symm

/-- Two lists sorted by the leaderboard comparator that agree on the
subsequence of entries at every score are equal. -/
theorem sorted_eq_of_filter_points_eq :
    ∀ (u v : List PlayerEntry), u.Pairwise (fun a b => lbLE a b) →
      v.Pairwise (fun a b => lbLE a b) →
      (∀ k : Nat, u.filter (fun x => x.points == k) = v.filter (fun x => x.points == k)) →
      u = v
  | [], [], _, _, _ => rfl
  | [], y :: v, _, _, hf => by
    have := hf y.points
    simp at this
  | x :: u, [], _, _, hf => by
    have := hf x.points
    simp at this
  | x :: u, y :: v, hu, hv, hf => by
    have hxy : x = y := by
      by_cases hpq : y.points = x.points
      · have := hf x.points
        simp only [List.filter_cons, beq_self_eq_true, if_true, hpq, beq_iff_eq] at this
        exact (List.cons_eq_cons.mp this).1
      · exfalso
        have h1 := hf x.points
        simp only [List.filter_cons, beq_self_eq_true, if_true, beq_iff_eq, hpq,
          if_false] at h1
        have hxv : x ∈ v := by
          have hx : x ∈ v.filter (fun z => z.points == x.points) := by
            rw [← h1]
            exact List.mem_cons_self x _
          exact (List.mem_filter.mp hx).1
        have h2 := hf y.points
        have hxny : ¬ x.points = y.points := fun h => hpq h.symm
        simp only [List.filter_cons, beq_self_eq_true, if_true, beq_iff_eq, hxny,
          if_false] at h2
        have hyu : y ∈ u := by
          have hy : y ∈ u.filter (fun z => z.points == y.points) := by
            rw [h2]
            exact List.mem_cons_self y _
          exact (List.mem_filter.mp hy).1
        have hx_le : x.points ≤ y.points := by
          have := List.rel_of_pairwise_cons hv hxv
          simpa [lbLE] using this
        have hy_le : y.points ≤ x.points := by
          have := List.rel_of_pairwise_cons hu hyu
          simpa [lbLE] using this
        exact hpq (Nat.le_antisymm hy_le hx_le)
    cases hxy
    have htail : ∀ k : Nat,
        u.filter (fun z => z.points == k) = v.filter (fun z => z.points == k) := by
      intro k
      have := hf k
      by_cases hk : x.points = k
      · simp only [List.filter_cons, hk, beq_self_eq_true, if_true] at this
        injection this
      · simp only [List.filter_cons, beq_iff_eq, hk, if_false] at this
        exact this
    exact congrArg (x :: ·) (sorted_eq_of_filter_points_eq u v hu.tail hv.tail htail)

/-! ## C5: shape of the reconciled leaderboard -/

/-- The spec's first stage: remove any existing entry with the same name. -/
def removeSameName (players : List PlayerEntry) (name : String) : List PlayerEntry :=
  players.filter fun p => p.name != name

/-- The spec's sort stage: order entries descending by points (stable). -/
def sortByPointsDesc (l : List PlayerEntry) : List PlayerEntry :=
  l.mergeSort lbLE

/-- C5. The reconciled leaderboard is exactly: same-name entries removed, the
candidate appended, the whole sorted descending by points, truncated to 5.
Hence it has at most 5 entries, is sorted descending by points, stays unique
by name when the input was, and with 6 distinctly-scored candidates the
lowest-scoring one is dropped. -/
theorem reconcile_shape (players : List PlayerEntry) (me : PlayerEntry) :
    reconcile players me =
      (sortByPointsDesc (removeSameName players me.name ++ [me])).take 5 ∧
    (reconcile players me).length ≤ 5 ∧
    (reconcile players me).Pairwise (fun a b => b.points ≤ a.points) ∧
    (players.Pairwise (fun a b => a.name ≠ b.name) →
      (reconcile players me).Pairwise (fun a b => a.name ≠ b.name)) ∧
    reconcile [⟨"A", 10, 1, 1⟩, ⟨"B", 60, 1, 1⟩, ⟨"C", 50, 1, 1⟩,
        ⟨"D", 40, 1, 1⟩, ⟨"E", 30, 1, 1⟩] ⟨"F", 20, 1, 1⟩ =
      [⟨"B", 60, 1, 1⟩, ⟨"C", 50, 1, 1⟩, ⟨"D", 40, 1, 1⟩,
        ⟨"E", 30, 1, 1⟩, ⟨"F", 20, 1, 1⟩] := by
  refine ⟨rfl, List.length_take_le 5 _, ?_, fun hnd => ?_, ?_⟩
  · have hs := List.sorted_mergeSort lbLE_trans lbLE_total
      ((players.filter fun p => p.name != me.name) ++ [me])
    have hs' := hs.imp (fun hab => by simpa [lbLE] using hab)
    exact List.Pairwise.sublist (List.take_sublist 5 _) hs'
  · have hM : (players.filter fun p => p.name != me.name).Pairwise
        (fun a b => a.name ≠ b.name) :=
      List.Pairwise.sublist (List.filter_sublist players) hnd
    have happ : ((players.filter fun p => p.name != me.name) ++ [me]).Pairwise
        (fun a b => a.name ≠ b.name) := by
      rw [List.pairwise_append]
      refine ⟨hM, List.pairwise_singleton _ _, ?_⟩
      intro x hx y hy
      simp only [List.mem_singleton] at hy
      subst hy
      simpa using (List.mem_filter.mp hx).2
    have hperm := List.mergeSort_perm
      ((players.filter fun p => p.name != me.name) ++ [me]) lbLE
    have hsorted := (hperm.pairwise_iff (fun hxy => Ne.symm hxy)).mpr happ
    exact List.Pairwise.sublist (List.take_sublist 5 _) hsorted
  · simp [reconcile, lbLE, List.mergeSort, List.splitInTwo, List.splitAt,
      List.splitAt.go, List.merge]

/-- C5 witness: on a concrete duplicate-free board the input uniqueness
hypothesis holds and the reconciled board is unique by name. -/
theorem reconcile_shape_witness :
    (reconcile [⟨"A", 10, 1, 1⟩] ⟨"F", 20, 1, 1⟩).Pairwise
      (fun a b => a.name ≠ b.name) :=
  (reconcile_shape [⟨"A", 10, 1, 1⟩] ⟨"F", 20, 1, 1⟩).2.2.2.1 (by simp)

/-! ## C6: reconciliation is idempotent -/

/-- C6. Inserting the same unchanged entry twice gives the same board as
inserting it once; and a board of at most 5 entries already holding an entry
with the candidate's name ends with exactly one entry of that name. -/
theorem reconcile_idempotent (players : List PlayerEntry) (me : PlayerEntry) :
    reconcile (reconcile players me) me = reconcile players me ∧
    ((∃ p ∈ players, p.name = me.name) → players.length ≤ 5 →
      (reconcile players me).countP (fun p => p.name == me.name) = 1) := by
  constructor
  · have hMname : ∀ x ∈ (players.filter fun p => p.name != me.name),
        x.name ≠ me.name := by
      intro x hx
      simpa using (List.mem_filter.mp hx).2
    set M := players.filter fun p => p.name != me.name with hM
    set S := (M ++ [me]).mergeSort lbLE with hSdef
    have hSperm : List.Perm S (M ++ [me]) := List.mergeSort_perm _ _
    have hSsorted : S.Pairwise (fun a b => lbLE a b) :=
      List.sorted_mergeSort lbLE_trans lbLE_total _
    have hrec : reconcile players me = S.take 5 := rfl
    rw [hrec]
    by_cases hmem : me ∈ S.take 5
    · -- the candidate survived the truncation
      have hmeM : me ∉ M := fun hc => hMname me hc rfl
      have hcount : S.count me = 1 := by
        rw [hSperm.count_eq]
        simp [List.count_append, List.count_eq_zero.mpr hmeM]
      have hmeS : me ∈ S := List.mem_of_mem_take hmem
      obtain ⟨S₁, S₂, hsplit⟩ := List.append_of_mem hmeS
      have hc2 : S₁.count me + (S₂.count me + 1) = 1 := by
        rw [hsplit] at hcount
        simpa [List.count_append] using hcount
      have hmeS₁ : me ∉ S₁ := List.count_eq_zero.mp (by omega)
      have hmeS₂ : me ∉ S₂ := List.count_eq_zero.mp (by omega)
      have hSsub : ∀ x ∈ S, x ∈ M ++ [me] := fun x hx => hSperm.mem_iff.mp hx
      have hS₁name : ∀ x ∈ S₁, x.name ≠ me.name := by
        intro x hx hxn
        rcases List.mem_append.mp
            (hSsub x (hsplit ▸ List.mem_append.mpr (Or.inl hx))) with h | h
        · exact hMname x h hxn
        · simp only [List.mem_singleton] at h
          exact hmeS₁ (h ▸ hx)
      have hS₂name : ∀ x ∈ S₂, x.name ≠ me.name := by
        intro x hx hxn
        have hxS : x ∈ S :=
          hsplit ▸ List.mem_append.mpr (Or.inr (List.mem_cons_of_mem _ hx))
        rcases List.mem_append.mp (hSsub x hxS) with h | h
        · exact hMname x h hxn
        · simp only [List.mem_singleton] at h
          exact hmeS₂ (h ▸ hx)
      have hfk := filter_points_mergeSort (M ++ [me]) me.points
      rw [← hSdef] at hfk
      have hkey : S₂.filter (fun x => x.points == me.points) = [] := by
        rw [hsplit, List.filter_append, List.filter_append, List.filter_cons,
          List.filter_cons] at hfk
        simp only [beq_self_eq_true, if_true, List.filter_nil] at hfk
        rcases List.eq_nil_or_concat
            (S₂.filter (fun x => x.points == me.points)) with hnil | ⟨B, b, hB⟩
        · exact hnil
        · exfalso
          rw [hB, List.concat_eq_append] at hfk
          have hre : S₁.filter (fun x => x.points == me.points) ++
              me :: (B ++ [b]) =
              (S₁.filter (fun x => x.points == me.points) ++ me :: B) ++ [b] := by
            simp
          rw [hre] at hfk
          have hlast := List.append_inj_right' hfk (by simp)
          have hbme : b = me := by simpa using hlast
          have hbmem : b ∈ S₂.filter (fun x => x.points == me.points) := by
            rw [hB, List.concat_eq_append]
            simp
          exact hmeS₂ (hbme ▸ (List.mem_filter.mp hbmem).1)
      have hS₂pts : ∀ y ∈ S₂, y.points ≠ me.points := by
        intro y hy hyp
        have hyf : y ∈ S₂.filter (fun x => x.points == me.points) :=
          List.mem_filter.mpr ⟨hy, by simp [hyp]⟩
        rw [hkey] at hyf
        exact absurd hyf (List.not_mem_nil y)
      have hlenS₁ : S₁.length < 5 := by
        by_contra hge
        push_neg at hge
        have htk : S.take 5 = S₁.take 5 := by
          rw [hsplit, List.take_append_eq_append_take]
          have h0 : 5 - S₁.length = 0 := by omega
          simp [h0]
        rw [htk] at hmem
        exact hmeS₁ (List.mem_of_mem_take hmem)
      obtain ⟨m, hm⟩ : ∃ m, 5 - S₁.length = m + 1 := ⟨4 - S₁.length, by omega⟩
      have hP : S.take 5 = S₁ ++ me :: S₂.take m := by
        rw [hsplit, List.take_append_eq_append_take, hm,
          List.take_of_length_le (by omega : S₁.length ≤ 5), List.take_succ_cons]
      have hBsubS₂ : ∀ y ∈ S₂.take m, y ∈ S₂ := fun y hy => List.mem_of_mem_take hy
      have hBname : ∀ y ∈ S₂.take m, y.name ≠ me.name :=
        fun y hy => hS₂name y (hBsubS₂ y hy)
      have hfilterP : (S.take 5).filter (fun p => p.name != me.name) =
          S₁ ++ S₂.take m := by
        rw [hP, List.filter_append, List.filter_cons]
        have h1 : S₁.filter (fun p => p.name != me.name) = S₁ :=
          List.filter_eq_self.mpr (fun a ha => by simpa using hS₁name a ha)
        have h2 : (S₂.take m).filter (fun p => p.name != me.name) = S₂.take m :=
          List.filter_eq_self.mpr (fun a ha => by simpa using hBname a ha)
        simp [h1, h2]
      have hPsorted : (S.take 5).Pairwise (fun a b => lbLE a b) :=
        List.Pairwise.sublist (List.take_sublist 5 S) hSsorted
      have husorted : (((S₁ ++ S₂.take m) ++ [me]).mergeSort lbLE).Pairwise
          (fun a b => lbLE a b) :=
        List.sorted_mergeSort lbLE_trans lbLE_total _
      have hfilters : ∀ k : Nat,
          (((S₁ ++ S₂.take m) ++ [me]).mergeSort lbLE).filter
            (fun x => x.points == k) =
          (S.take 5).filter (fun x => x.points == k) := by
        intro k
        rw [filter_points_mergeSort, hP, List.filter_append, List.filter_append,
          List.filter_append, List.filter_cons, List.filter_cons]
        by_cases hk : me.points = k
        · have hBk : (S₂.take m).filter (fun x => x.points == k) = [] := by
            apply List.filter_eq_nil_iff.mpr
            intro y hy
            simp only [beq_iff_eq]
            exact fun hyk => hS₂pts y (hBsubS₂ y hy) (hyk.trans hk.symm)
          simp [hk, hBk]
        · simp [hk]
      have huniq := sorted_eq_of_filter_points_eq _ _ husorted hPsorted hfilters
      show ((((S.take 5).filter fun p => p.name != me.name) ++ [me]).mergeSort
        lbLE).take 5 = S.take 5
      rw [hfilterP, huniq, List.take_take]
      simp
    · -- the candidate was dropped by the truncation
      have hmeS : me ∈ S := hSperm.mem_iff.mpr (by simp)
      have hmedrop : me ∈ S.drop 5 := by
        have hx : me ∈ S.take 5 ++ S.drop 5 := by
          rw [List.take_append_drop]
          exact hmeS
        rcases List.mem_append.mp hx with h | h
        · exact absurd h hmem
        · exact h
      have h5lt : 5 < S.length := by
        by_contra hle
        push_neg at hle
        rw [List.drop_eq_nil_of_le hle] at hmedrop
        exact absurd hmedrop (List.not_mem_nil me)
      have hlen5 : (S.take 5).length = 5 := by
        simp only [List.length_take]
        omega
      have hPname : ∀ x ∈ S.take 5, x.name ≠ me.name := by
        intro x hx hxn
        have hxS : x ∈ S := List.mem_of_mem_take hx
        rcases List.mem_append.mp (hSperm.mem_iff.mp hxS) with h | h
        · exact hMname x h hxn
        · simp only [List.mem_singleton] at h
          exact hmem (h ▸ hx)
      have hfilterP : (S.take 5).filter (fun p => p.name != me.name) = S.take 5 :=
        List.filter_eq_self.mpr (fun a ha => by simpa using hPname a ha)
      have hcross : ∀ x ∈ S.take 5, lbLE x me := by
        have hx : (S.take 5 ++ S.drop 5).Pairwise (fun a b => lbLE a b) := by
          rw [List.take_append_drop]
          exact hSsorted
        have h3 := (List.pairwise_append.mp hx).2.2
        exact fun x hxx => h3 x hxx me hmedrop
      have hsorted2 : ((S.take 5) ++ [me]).Pairwise (fun a b => lbLE a b) := by
        rw [List.pairwise_append]
        exact ⟨List.Pairwise.sublist (List.take_sublist 5 S) hSsorted,
          List.pairwise_singleton _ _,
          fun x hxx y hy => by
            simp only [List.mem_singleton] at hy
            subst hy
            exact hcross x hxx⟩
      show ((((S.take 5).filter fun p => p.name != me.name) ++ [me]).mergeSort
        lbLE).take 5 = S.take 5
      rw [hfilterP, List.mergeSort_of_sorted hsorted2,
        List.take_append_eq_append_take, hlen5, List.take_take]
      simp
  · rintro ⟨p, hp, hpname⟩ hlen
    have hne : (players.filter fun q => q.name != me.name).length ≠
        players.length := by
      intro he
      have heq := (List.filter_sublist players).eq_of_length he
      have hpmem : p ∈ players.filter fun q => q.name != me.name := by
        rw [heq]
        exact hp
      have hb := (List.mem_filter.mp hpmem).2
      simp [hpname] at hb
    have hflt : (players.filter fun q => q.name != me.name).length <
        players.length :=
      Nat.lt_of_le_of_ne (List.filter_sublist players).length_le hne
    have hperm := List.mergeSort_perm
      ((players.filter fun q => q.name != me.name) ++ [me]) lbLE
    have hlenS : (((players.filter fun q => q.name != me.name) ++
        [me]).mergeSort lbLE).length ≤ 5 := by
      rw [hperm.length_eq]
      simp only [List.length_append, List.length_singleton]
      omega
    have htake : reconcile players me =
        ((players.filter fun q => q.name != me.name) ++ [me]).mergeSort lbLE :=
      List.take_of_length_le hlenS
    rw [htake, hperm.countP_eq, List.countP_append]
    have h0 : (players.filter fun q => q.name != me.name).countP
        (fun q => q.name == me.name) = 0 := by
      apply List.countP_eq_zero.mpr
      intro a ha
      have hb := (List.mem_filter.mp ha).2
      simp only [bne_iff_ne, ne_eq] at hb
      simp [hb]
    simp [h0, List.countP_cons]

/-- C6 witness: re-inserting an entry for a name already on a one-entry board
changes nothing, and the name appears exactly once. -/
theorem reconcile_idempotent_witness :
    reconcile (reconcile [⟨"A", 50, 1, 1⟩] ⟨"A", 50, 2, 1⟩) ⟨"A", 50, 2, 1⟩ =
      reconcile [⟨"A", 50, 1, 1⟩] ⟨"A", 50, 2, 1⟩ ∧
    (reconcile [⟨"A", 50, 1, 1⟩] ⟨"A", 50, 2, 1⟩).countP
      (fun p => p.name == "A") = 1 :=
  ⟨(reconcile_idempotent [⟨"A", 50, 1, 1⟩] ⟨"A", 50, 2, 1⟩).1,
   (reconcile_idempotent [⟨"A", 50, 1, 1⟩] ⟨"A", 50, 2, 1⟩).2
     ⟨⟨"A", 50, 1, 1⟩, by simp, rfl⟩ (by simp)⟩

end HabitApp
